import Mathlib

/-!
Shallow embedding of the Personal-Memory-Agent ingestion/retrieval core:
the durable event queue and its writer (watcher.py), the indexing worker
(indexer.py), the vector store (vectorstore.py), and the embedding client
(llm_client.py).  Machine floats are modelled exactly: 32-bit patterns as
naturals for the byte-level serialization, rationals for the arithmetic the
similarity search performs.
-/

namespace PMA

/-!
### Embedding serialization: `to_bytes` / `from_bytes` in vectorstore.py.

A float32 value is identified with its 32-bit pattern, a `Nat < 2 ^ 32`;
`numpy.ndarray.tobytes` emits the four bytes of each element little-endian
(byte k of a word w is `w >>> (8*k) &&& 255`), and `numpy.frombuffer` with
dtype float32 reads consecutive 4-byte groups back into words.
-/

def word_to_bytes (w : Nat) : List Nat :=
  [w % 256, w / 256 % 256, w / 65536 % 256, w / 16777216 % 256]

def to_bytes : List Nat → List Nat
  | [] => []
  | w :: ws => word_to_bytes w ++ to_bytes ws

def from_bytes : List Nat → List Nat
  | b0 :: b1 :: b2 :: b3 :: rest =>
      (b0 + 256 * b1 + 65536 * b2 + 16777216 * b3) :: from_bytes rest
  | _ => []

theorem word_to_bytes_length (w : Nat) : (word_to_bytes w).length = 4 := rfl

theorem word_roundtrip (w : Nat) (h : w < 2 ^ 32) :
    w % 256 + 256 * (w / 256 % 256) + 65536 * (w / 65536 % 256)
      + 16777216 * (w / 16777216 % 256) = w := by
  omega

theorem to_bytes_length (v : List Nat) : (to_bytes v).length = 4 * v.length := by
  induction v with
  | nil => rfl
  | cons w ws ih =>
      simp [to_bytes, word_to_bytes, List.length_append, ih]
      ring

theorem from_bytes_to_bytes (v : List Nat) (h : ∀ w ∈ v, w < 2 ^ 32) :
    from_bytes (to_bytes v) = v := by
  induction v with
  | nil => rfl
  | cons w ws ih =>
      have hw : w < 2 ^ 32 := h w (List.mem_cons_self w ws)
      have hws : ∀ x ∈ ws, x < 2 ^ 32 := fun x hx => h x (List.mem_cons_of_mem w hx)
      simp [to_bytes, word_to_bytes, from_bytes, ih hws, word_roundtrip w hw]

/-- C8: embedding serialization round-trips. For every vector of D 32-bit
float patterns, `to_bytes` produces exactly D × 4 bytes of little-endian
float32 data, and `from_bytes (to_bytes v)` equals `v` (same length, same
element values). -/
theorem serialization_roundtrip (v : List Nat) (h : ∀ w ∈ v, w < 2 ^ 32) :
    (to_bytes v).length = 4 * v.length ∧ from_bytes (to_bytes v) = v :=
  ⟨to_bytes_length v, from_bytes_to_bytes v h⟩

/-- Witness for C8 at a concrete three-element vector. -/
theorem serialization_roundtrip_witness :
    (to_bytes [1, 4294967295, 305419896]).length = 4 * 3 ∧
      from_bytes (to_bytes [1, 4294967295, 305419896]) = [1, 4294967295, 305419896] :=
  serialization_roundtrip [1, 4294967295, 305419896] (by decide)

/-!
### Vector store: `VectorStore` in vectorstore.py.

The sqlite table `vectors (id INTEGER PRIMARY KEY, path TEXT UNIQUE, summary,
embedding BLOB, timestamp REAL, sha256 TEXT)` is modelled as a list of records
in rowid order.  `upsert` runs `INSERT OR REPLACE` with the id column omitted:
sqlite picks the new rowid as (maximum rowid currently in the table) + 1 —
chosen before the path-conflicting row is removed — then deletes any row
sharing the UNIQUE `path` and inserts the fresh row; so the model removes the
conflicting record and appends a record carrying id `maxId s + 1`.
Embedding values are exact rationals (float32 values embed into ℚ).
-/

structure MemRecord where
  id : Nat
  path : String
  summary : String
  embedding : List ℚ
  timestamp : ℚ
  sha256 : String
  deriving Repr, DecidableEq

def maxId (s : List MemRecord) : Nat :=
  s.foldr (fun r m => max r.id m) 0

def upsert (s : List MemRecord) (path summary : String) (vector : List ℚ)
    (timestamp : ℚ) (sha256 : String) : List MemRecord :=
  s.filter (fun r => r.path ≠ path) ++
    [⟨maxId s + 1, path, summary, vector, timestamp, sha256⟩]

/-- The UNIQUE constraint on `path`: no two rows share a path. -/
def UniquePaths (s : List MemRecord) : Prop :=
  (s.map (fun r => r.path)).Nodup

/--
The similarity search of `VectorStore.search`.  `np.linalg.norm` takes a
square root, which leaves ℚ, so the norm is an explicit function parameter:
every property proved below holds for an arbitrary norm function.  The Python
expression `np.linalg.norm(q) or 1e-12` replaces a zero norm by `1e-12`, and
`np.where(denom == 0, 1e-12, denom)` replaces a zero denominator entry by
`1e-12`, exactly as modelled in `divisor`.
-/

def EPS : ℚ := 1 / 10 ^ 12

def dot (a b : List ℚ) : ℚ := (List.zipWith (fun x y => x * y) a b).sum

def divisor (norm : List ℚ → ℚ) (q : List ℚ) (r : MemRecord) : ℚ :=
  let qn := if norm q = 0 then EPS else norm q
  let denom := norm r.embedding * qn
  if denom = 0 then EPS else denom

def score (norm : List ℚ → ℚ) (q : List ℚ) (r : MemRecord) : ℚ :=
  dot r.embedding q / divisor norm q r

/-- Descending order on scored records, as produced by `np.argsort(scores)[::-1]`. -/
def searchRel : ℚ × MemRecord → ℚ × MemRecord → Prop := fun a b => b.1 ≤ a.1

instance : DecidableRel searchRel := fun a b =>
  inferInstanceAs (Decidable (b.1 ≤ a.1))

instance : IsTotal (ℚ × MemRecord) searchRel :=
  ⟨fun a b => le_total b.1 a.1⟩

instance : IsTrans (ℚ × MemRecord) searchRel :=
  ⟨fun _ _ _ h1 h2 => le_trans h2 h1⟩

/-- The ordering of equal scores after `np.argsort(...)[::-1]` is unspecified;
a correct descending sort models it (insertion sort here). -/
def search (norm : List ℚ → ℚ) (recs : List MemRecord) (q : List ℚ)
    (top_k : Nat) : List (ℚ × MemRecord) :=
  match recs with
  | [] => []
  | _ =>
      (List.insertionSort searchRel
        (recs.map (fun r => (score norm q r, r)))).take top_k

theorem maxId_cons (a : MemRecord) (l : List MemRecord) :
    maxId (a :: l) = max a.id (maxId l) := rfl

theorem id_le_maxId (s : List MemRecord) (r : MemRecord) (hr : r ∈ s) :
    r.id ≤ maxId s := by
  induction s with
  | nil => cases hr
  | cons a l ih =>
      rcases List.mem_cons.mp hr with h | h
      · subst h; exact le_max_left _ _
      · exact le_trans (ih h) (le_max_right _ _)

theorem filter_upsert_self (s : List MemRecord) (p su : String) (v : List ℚ)
    (t : ℚ) (sha : String) :
    (upsert s p su v t sha).filter (fun r => r.path == p) =
      [⟨maxId s + 1, p, su, v, t, sha⟩] := by
  have hnil : (s.filter (fun r => r.path ≠ p)).filter (fun r => r.path == p) = [] := by
    rw [List.filter_eq_nil_iff]
    intro r hr
    have := (List.mem_filter.mp hr).2
    simpa using this
  simp [upsert, List.filter_append, hnil]

theorem upsert_preserves_unique (s : List MemRecord) (p su : String)
    (v : List ℚ) (t : ℚ) (sha : String) (hU : UniquePaths s) :
    UniquePaths (upsert s p su v t sha) := by
  unfold UniquePaths upsert
  rw [List.map_append, List.nodup_append]
  refine ⟨?_, by simp, ?_⟩
  · exact hU.sublist ((List.filter_sublist s).map (fun r => r.path))
  · intro x hx
    rcases List.mem_map.mp hx with ⟨r, hr, hrx⟩
    have hne := (List.mem_filter.mp hr).2
    simp only [List.map_cons, List.map_nil, List.mem_singleton]
    intro hxp
    subst hrx
    subst hxp
    simpa using hne

/-- C2: the vector store keeps at most one record per path (`path` is UNIQUE,
and upsert preserves that), and indexing the same path a second time with
different content leaves exactly one record for that path, whose summary,
embedding, timestamp and content hash are those of the second content. -/
theorem upsert_overwrite (s : List MemRecord) (p su1 su2 : String)
    (v1 v2 : List ℚ) (t1 t2 : ℚ) (h1 h2 : String) (hU : UniquePaths s) :
    UniquePaths (upsert (upsert s p su1 v1 t1 h1) p su2 v2 t2 h2) ∧
      (upsert (upsert s p su1 v1 t1 h1) p su2 v2 t2 h2).filter
          (fun r => r.path == p) =
        [⟨maxId (upsert s p su1 v1 t1 h1) + 1, p, su2, v2, t2, h2⟩] :=
  ⟨upsert_preserves_unique _ _ _ _ _ _ (upsert_preserves_unique s p su1 v1 t1 h1 hU),
   filter_upsert_self _ p su2 v2 t2 h2⟩

/-- Witness for C2 on a concrete store of one unrelated record. -/
theorem upsert_overwrite_witness :
    UniquePaths (upsert (upsert [⟨1, "b", "x", [1], 0, "hb"⟩] "a" "s1" [1] 1 "d1")
        "a" "s2" [2] 2 "d2") ∧
      (upsert (upsert [⟨1, "b", "x", [1], 0, "hb"⟩] "a" "s1" [1] 1 "d1")
          "a" "s2" [2] 2 "d2").filter (fun r => r.path == "a") =
        [⟨maxId (upsert [⟨1, "b", "x", [1], 0, "hb"⟩] "a" "s1" [1] 1 "d1") + 1,
          "a", "s2", [2], 2, "d2"⟩] :=
  upsert_overwrite [⟨1, "b", "x", [1], 0, "hb"⟩] "a" "s1" "s2" [1] [2] 1 2 "d1" "d2"
    (by simp [UniquePaths])

/-- C10: upserting a path that already has a record inserts a fresh row whose
id is `maxId s + 1`, strictly larger than (hence different from) the id of the
previous record for that path; that fresh row is the unique row for the path
afterwards.  (sqlite assigns the new rowid before deleting the conflicting
row, so it is max-over-all-rows + 1.) -/
theorem upsert_changes_id (s : List MemRecord) (r : MemRecord) (p su : String)
    (v : List ℚ) (t : ℚ) (sha : String) (hr : r ∈ s) (hp : r.path = p) :
    (⟨maxId s + 1, p, su, v, t, sha⟩ : MemRecord) ∈ upsert s p su v t sha ∧
      (∀ r2 ∈ upsert s p su v t sha, r2.path = p →
        r2 = (⟨maxId s + 1, p, su, v, t, sha⟩ : MemRecord)) ∧
      r.id < maxId s + 1 ∧ r.id ≠ maxId s + 1 := by
  have hle : r.id ≤ maxId s := id_le_maxId s r hr
  refine ⟨?_, ?_, ?_, ?_⟩
  · exact List.mem_append_right _ (List.mem_singleton.mpr rfl)
  · intro r2 hr2 hr2p
    rcases List.mem_append.mp hr2 with h | h
    · have hne := (List.mem_filter.mp h).2
      exact absurd hr2p (by simpa using hne)
    · exact List.mem_singleton.mp h
  · omega
  · omega

/-- Witness for C10: re-upserting the sole record's path. -/
theorem upsert_changes_id_witness :
    (⟨2, "a", "s2", [2], 2, "d2"⟩ : MemRecord) ∈
        upsert [⟨1, "a", "s1", [1], 1, "d1"⟩] "a" "s2" [2] 2 "d2" ∧
      (∀ r2 ∈ upsert [⟨1, "a", "s1", [1], 1, "d1"⟩] "a" "s2" [2] 2 "d2",
        r2.path = "a" → r2 = (⟨2, "a", "s2", [2], 2, "d2"⟩ : MemRecord)) ∧
      (1 : Nat) < 2 ∧ (1 : Nat) ≠ 2 :=
  upsert_changes_id [⟨1, "a", "s1", [1], 1, "d1"⟩] ⟨1, "a", "s1", [1], 1, "d1"⟩
    "a" "s2" [2] 2 "d2" (List.mem_singleton.mpr rfl) rfl

/-- C6: for every store state, query vector and k, `search` returns a sequence
of length `min k (number of records)`, sorted by non-increasing score, and the
empty store yields the empty sequence. -/
theorem search_length_sorted (norm : List ℚ → ℚ) (recs : List MemRecord)
    (q : List ℚ) (k : Nat) :
    (search norm recs q k).length = min k recs.length ∧
      List.Sorted searchRel (search norm recs q k) ∧
      (recs = [] → search norm recs q k = []) := by
  refine ⟨?_, ?_, ?_⟩
  · cases recs with
    | nil => simp [search]
    | cons a l =>
        show ((List.insertionSort searchRel
            ((a :: l).map fun r => (score norm q r, r))).take k).length = _
        rw [List.length_take, List.length_insertionSort, List.length_map]
  · cases recs with
    | nil => simp [search, List.Sorted]
    | cons a l =>
        exact (List.sorted_insertionSort searchRel
          ((a :: l).map fun r => (score norm q r, r))).sublist (List.take_sublist _ _)
  · intro h
    subst h
    rfl

/-- Witness for C6, discharging the empty-store implication at `[]` and
evaluating the length at a one-record store. -/
theorem search_length_sorted_witness :
    (search (fun v => v.sum) [⟨1, "a", "s", [1], 0, "d"⟩] [1] 5).length =
        min 5 1 ∧
      search (fun v => v.sum) ([] : List MemRecord) [1] 5 = [] :=
  ⟨(search_length_sorted (fun v => v.sum) [⟨1, "a", "s", [1], 0, "d"⟩] [1] 5).1,
   (search_length_sorted (fun v => v.sum) [] [1] 5).2.2 rfl⟩

/-- C7: every result of `search` carries score `dot(a, q) / divisor`, where
the divisor substitutes the epsilon `1e-12` for a zero query norm and for a
zero product of norms; the divisor is never zero for any norm function, any
query (including all-zero) and any stored record, so the division is never a
division by zero. -/
theorem search_cosine_no_div_zero (norm : List ℚ → ℚ) (recs : List MemRecord)
    (q : List ℚ) (k : Nat) :
    (∀ p ∈ search norm recs q k,
        ∃ r ∈ recs, p = (dot r.embedding q / divisor norm q r, r)) ∧
      ∀ r : MemRecord, divisor norm q r ≠ 0 := by
  constructor
  · intro p hp
    cases recs with
    | nil => cases hp
    | cons a l =>
        have hp1 : p ∈ List.insertionSort searchRel
            ((a :: l).map (fun r => (score norm q r, r))) :=
          List.take_subset _ _ hp
        have hp2 : p ∈ (a :: l).map (fun r => (score norm q r, r)) :=
          (List.perm_insertionSort searchRel _).mem_iff.mp hp1
        rcases List.mem_map.mp hp2 with ⟨r, hr, hreq⟩
        exact ⟨r, hr, hreq.symm⟩
  · intro r
    unfold divisor
    dsimp only
    split_ifs with h1 h2 h3
    · norm_num [EPS]
    · assumption
    · norm_num [EPS]
    · assumption

/-!
### Durable event queue: the `events` table of watcher.py and the fetch
query of indexer.py, `SELECT id, event_type, path, timestamp FROM events
WHERE processed=0 ORDER BY id LIMIT 10`.
-/

structure Event where
  id : Nat
  event_type : String
  path : String
  timestamp : ℚ
  processed : Bool
  deriving Repr, DecidableEq

/-- ORDER BY id: ascending id order. -/
def eventRel : Event → Event → Prop := fun a b => a.id ≤ b.id

instance : DecidableRel eventRel := fun a b =>
  inferInstanceAs (Decidable (a.id ≤ b.id))

instance : IsTotal Event eventRel := ⟨fun a b => Nat.le_total a.id b.id⟩

instance : IsTrans Event eventRel := ⟨fun _ _ _ h1 h2 => Nat.le_trans h1 h2⟩

def fetch_unprocessed (table : List Event) : List Event :=
  (List.insertionSort eventRel
    (table.filter (fun e => e.processed == false))).take 10

theorem fetch_mem_unprocessed (table : List Event) (e : Event)
    (he : e ∈ fetch_unprocessed table) : e ∈ table ∧ e.processed = false := by
  have h1 : e ∈ List.insertionSort eventRel
      (table.filter (fun e => e.processed == false)) :=
    List.take_subset _ _ he
  have h2 : e ∈ table.filter (fun e => e.processed == false) :=
    (List.perm_insertionSort eventRel _).mem_iff.mp h1
  have h3 := List.mem_filter.mp h2
  exact ⟨h3.1, by simpa using h3.2⟩

/-- In a list sorted by ascending id, any member of the first k entries has
fewer than k list elements of strictly smaller id. -/
theorem sorted_take_count_lt (l : List Event) (hs : List.Sorted eventRel l)
    (k : Nat) (e : Event) (he : e ∈ l.take k) :
    (l.filter (fun x => decide (x.id < e.id))).length < k := by
  induction l generalizing k with
  | nil => simp at he
  | cons a t ih =>
      cases k with
      | zero => simp at he
      | succ k =>
          rcases List.mem_cons.mp (by simpa using he) with rfl | hmem
          · have hnone : t.filter (fun x => decide (x.id < e.id)) = [] := by
              rw [List.filter_eq_nil_iff]
              intro x hx
              have hax : e.id ≤ x.id := (List.sorted_cons.mp hs).1 x hx
              simp only [decide_eq_true_eq]
              omega
            simp [List.filter_cons, hnone]
          · have ih2 := ih (List.Sorted.of_cons hs) k hmem
            have hcons : (List.filter (fun x => decide (x.id < e.id)) (a :: t)).length ≤
                (t.filter (fun x => decide (x.id < e.id))).length + 1 := by
              rw [List.filter_cons]
              split <;> simp
            omega

/-- C4: a poll cycle fetches at most 10 events, all unprocessed, in
non-decreasing id order, and only events among the first 10 unprocessed ids:
for each fetched event, fewer than 10 unprocessed rows of the table have a
strictly smaller id (so no processed row and no row beyond the first 10
unprocessed ids is fetched). -/
theorem fetch_batch_shape (table : List Event) :
    (fetch_unprocessed table).length ≤ 10 ∧
      (∀ e ∈ fetch_unprocessed table, e ∈ table ∧ e.processed = false) ∧
      List.Sorted eventRel (fetch_unprocessed table) ∧
      ∀ e ∈ fetch_unprocessed table,
        (table.filter (fun x => x.processed == false && decide (x.id < e.id))).length
          < 10 := by
  refine ⟨?_, fun e he => fetch_mem_unprocessed table e he, ?_, ?_⟩
  · simpa [fetch_unprocessed] using
      List.length_take_le 10 (List.insertionSort eventRel
        (table.filter (fun e => e.processed == false)))
  · exact (List.sorted_insertionSort eventRel _).sublist (List.take_sublist _ _)
  · intro e he
    have hperm : List.Perm
        (List.insertionSort eventRel (table.filter (fun e => e.processed == false)))
        (table.filter (fun e => e.processed == false)) :=
      List.perm_insertionSort eventRel _
    have hcount := sorted_take_count_lt _
      (List.sorted_insertionSort eventRel
        (table.filter (fun e => e.processed == false))) 10 e he
    have hflt : (table.filter (fun x => x.processed == false && decide (x.id < e.id))) =
        (table.filter (fun e => e.processed == false)).filter
          (fun x => decide (x.id < e.id)) := by
      rw [List.filter_filter]
      exact List.filter_congr fun x _ => Bool.and_comm _ _
    rw [hflt]
    have hlen : ((table.filter (fun e => e.processed == false)).filter
        (fun x => decide (x.id < e.id))).length =
        ((List.insertionSort eventRel
          (table.filter (fun e => e.processed == false))).filter
            (fun x => decide (x.id < e.id))).length :=
      (hperm.filter _).length_eq.symm
    omega

/-- Witness for C4 on a concrete three-row table (one processed row, ids out
of order). -/
theorem fetch_batch_shape_witness :
    (fetch_unprocessed
        [⟨3, "modified", "a", 0, false⟩, ⟨1, "created", "b", 0, false⟩,
         ⟨2, "created", "c", 0, true⟩]).length ≤ 10 ∧
      (⟨1, "created", "b", 0, false⟩ : Event) ∈
          [⟨3, "modified", "a", 0, false⟩, ⟨1, "created", "b", 0, false⟩,
           ⟨2, "created", "c", 0, true⟩] ∧
        (⟨1, "created", "b", 0, false⟩ : Event).processed = false :=
  ⟨(fetch_batch_shape _).1,
   (fetch_batch_shape _).2.1 ⟨1, "created", "b", 0, false⟩ (by decide)⟩

/-- Witness for C7: the single stored record is returned with the cosine
score formula, and the divisor is nonzero at a concrete record. -/
theorem search_cosine_no_div_zero_witness :
    (∃ r ∈ [(⟨1, "a", "s", [1], 0, "d"⟩ : MemRecord)],
        ((1 : ℚ), (⟨1, "a", "s", [1], 0, "d"⟩ : MemRecord)) =
          (dot r.embedding [1] / divisor (fun v => v.sum) [1] r, r)) ∧
      divisor (fun v => v.sum) [1] (⟨1, "a", "s", [1], 0, "d"⟩ : MemRecord) ≠ 0 :=
  ⟨(search_cosine_no_div_zero (fun v => v.sum) [⟨1, "a", "s", [1], 0, "d"⟩] [1] 1).1
      ((1 : ℚ), ⟨1, "a", "s", [1], 0, "d"⟩)
      (by simp [search, score, divisor, dot, EPS]),
   (search_cosine_no_div_zero (fun v => v.sum) [⟨1, "a", "s", [1], 0, "d"⟩] [1] 1).2
      ⟨1, "a", "s", [1], 0, "d"⟩⟩

/-!
### Indexing worker: `process_row` and `run_loop` in indexer.py.

The collaborators the worker calls are explicit parameters: `pathExists`
models `os.path.exists`, `extractText` models `extract_text_for_path`
(which may raise, e.g. on an unreadable pdf), `sha256Text` models
`sha256_of_text`, and `embedChunks` models `client.embed` (which, like any
step, may raise).  An `Except` value models Python control flow: `.error`
is a raised exception.
-/

structure Env where
  pathExists : String → Bool
  extractText : String → Except String String
  sha256Text : String → String
  embedChunks : List String → Except String (List (List ℚ))

/-- Modelled from the spec: `chunk_text` lives in `utils.py`, which is not
among the sources; the spec says the text is partitioned into overlapping
chunks, window 1200 characters, overlap 200 (so consecutive windows start
1000 characters apart). -/
def chunk_text (text : String) (chunk_size overlap : Nat) : List String :=
  let chars := text.toList
  let step := chunk_size - overlap
  (List.range ((chars.length + step - 1) / step)).map
    (fun i => String.mk ((chars.drop (i * step)).take chunk_size))

/-- Component-wise arithmetic mean of the chunk vectors,
`np.mean(np.vstack(embeddings), axis=0)`. -/
def meanVec (vs : List (List ℚ)) : List ℚ :=
  (List.range (vs.headD []).length).map
    (fun i => (vs.map (fun v => v.getD i 0)).sum / (vs.length : ℚ))

/-- Summary of the text: `text[:800] + ("..." if len(text) > 800 else "")`. -/
def summaryOf (text : String) : String :=
  if text.length > 800 then text.take 800 ++ "..." else text.take 800

def process_row (env : Env) (store : List MemRecord) (e : Event) :
    Except String (List MemRecord) :=
  if env.pathExists e.path = false then .ok store
  else
    match env.extractText e.path with
    | .error msg => .error msg
    | .ok text =>
        if text = "" then .ok store
        else
          let sha := env.sha256Text text
          let summary := summaryOf text
          let chunks := chunk_text text 1200 200
          match env.embedChunks chunks with
          | .error msg => .error msg
          | .ok embeddings =>
              .ok (upsert store e.path summary (meanVec embeddings) e.timestamp sha)

/-- Effect of `UPDATE events SET processed=1 WHERE id=?`. -/
def markProcessed (t : List Event) (i : Nat) : List Event :=
  t.map (fun e => if e.id = i then { e with processed := true } else e)

/-- One iteration of the `for r in rows` body of `run_loop`: `process_row`
inside `try/except Exception` — the exception only gets printed — followed
unconditionally by the processed=1 update. -/
def handleEvent (env : Env) (st : List Event × List MemRecord) (e : Event) :
    List Event × List MemRecord :=
  let store2 := match process_row env st.2 e with
    | .ok s => s
    | .error _ => st.2
  (markProcessed st.1 e.id, store2)

/-- One poll cycle of `run_loop`: fetch up to 10 unprocessed rows, then run
the per-row body over each of them. -/
def runCycle (env : Env) (t : List Event) (store : List MemRecord) :
    List Event × List MemRecord :=
  (fetch_unprocessed t).foldl (handleEvent env) (t, store)

/-- All table rows carrying the id are flagged processed. -/
def MarkedDone (t : List Event) (i : Nat) : Prop :=
  ∀ e ∈ t, e.id = i → e.processed = true

theorem markProcessed_keeps (t : List Event) (i j : Nat) (h : MarkedDone t i) :
    MarkedDone (markProcessed t j) i := by
  intro e he hei
  rcases List.mem_map.mp he with ⟨x, hx, hxe⟩
  by_cases hxj : x.id = j
  · rw [← hxe]
    simp [hxj]
  · simp only [if_neg hxj] at hxe
    subst hxe
    exact h x hx hei

theorem markProcessed_marks (t : List Event) (i : Nat) :
    MarkedDone (markProcessed t i) i := by
  intro e he hei
  rcases List.mem_map.mp he with ⟨x, hx, hxe⟩
  by_cases hxj : x.id = i
  · rw [← hxe]
    simp [hxj]
  · simp only [if_neg hxj] at hxe
    subst hxe
    exact absurd hei hxj

theorem foldl_keeps_marked (env : Env) (l : List Event) (i : Nat) :
    ∀ st : List Event × List MemRecord, MarkedDone st.1 i →
      MarkedDone (l.foldl (handleEvent env) st).1 i := by
  induction l with
  | nil => intro st h; exact h
  | cons a rest ih =>
      intro st h
      exact ih (handleEvent env st a) (markProcessed_keeps st.1 i a.id h)

theorem foldl_marks_members (env : Env) (l : List Event) (e : Event)
    (he : e ∈ l) :
    ∀ st : List Event × List MemRecord,
      MarkedDone (l.foldl (handleEvent env) st).1 e.id := by
  induction l with
  | nil => cases he
  | cons a rest ih =>
      intro st
      rcases List.mem_cons.mp he with rfl | hmem
      · exact foldl_keeps_marked env rest e.id (handleEvent env st e)
          (markProcessed_marks st.1 e.id)
      · exact ih hmem (handleEvent env st a)

/-- C1: whatever the collaborators do — including raising during extraction,
chunking/embedding or upsert (`process_row` returning `.error`) — every
fetched event of a poll cycle ends the cycle flagged processed: the worker
advances past every fetched event regardless of per-item outcome. -/
theorem cycle_marks_every_fetched (env : Env) (t : List Event)
    (store : List MemRecord) (e : Event) (he : e ∈ fetch_unprocessed t) :
    MarkedDone (runCycle env t store).1 e.id :=
  foldl_marks_members env (fetch_unprocessed t) e he (t, store)

/-- Witness for C1: a one-row table whose extraction raises; the row is
marked processed anyway. -/
theorem cycle_marks_every_fetched_witness :
    MarkedDone
      (runCycle
        ⟨fun _ => true, fun _ => Except.error "boom", fun _ => "h",
          fun _ => Except.error "boom"⟩
        [⟨1, "created", "a.txt", 0, false⟩] []).1
      (⟨1, "created", "a.txt", 0, false⟩ : Event).id :=
  cycle_marks_every_fetched
    ⟨fun _ => true, fun _ => Except.error "boom", fun _ => "h",
      fun _ => Except.error "boom"⟩
    [⟨1, "created", "a.txt", 0, false⟩] [] ⟨1, "created", "a.txt", 0, false⟩
    (by decide)

/-- C3: an event whose path does not exist, or whose extracted text is empty,
changes no record — `process_row` returns the store unchanged and raises
nothing — and the event still ends the cycle flagged processed. -/
theorem skip_event_no_record_still_processed (env : Env) (t : List Event)
    (store : List MemRecord) (e : Event) (he : e ∈ fetch_unprocessed t)
    (hskip : env.pathExists e.path = false ∨ env.extractText e.path = .ok "") :
    process_row env store e = .ok store ∧
      MarkedDone (runCycle env t store).1 e.id := by
  constructor
  · rcases hskip with h | h
    · simp [process_row, h]
    · by_cases hex : env.pathExists e.path = false
      · simp [process_row, hex]
      · simp [process_row, hex, h]
  · exact foldl_marks_members env (fetch_unprocessed t) e he (t, store)

/-- Witness for C3: a one-row table over a missing path. -/
theorem skip_event_no_record_still_processed_witness :
    process_row
        ⟨fun _ => false, fun _ => Except.ok "text", fun _ => "h",
          fun _ => Except.ok [[1]]⟩ [] ⟨1, "created", "gone.txt", 0, false⟩ =
      Except.ok [] ∧
      MarkedDone
        (runCycle
          ⟨fun _ => false, fun _ => Except.ok "text", fun _ => "h",
            fun _ => Except.ok [[1]]⟩
          [⟨1, "created", "gone.txt", 0, false⟩] []).1
        (⟨1, "created", "gone.txt", 0, false⟩ : Event).id :=
  skip_event_no_record_still_processed
    ⟨fun _ => false, fun _ => Except.ok "text", fun _ => "h",
      fun _ => Except.ok [[1]]⟩
    [⟨1, "created", "gone.txt", 0, false⟩] [] ⟨1, "created", "gone.txt", 0, false⟩
    (by decide) (Or.inl rfl)

/-!
### Queue writer retry: `safe_insert_event` in watcher.py.

The outcome of attempt number i (0-based) is an oracle parameter:
`success` models the INSERT committing, `locked` models
`sqlite3.OperationalError` with "database is locked" in its message (slept
through and retried), `otherError` models any other `OperationalError`
(re-raised).  The trace records the boolean result, how many attempts ran,
and the total milliseconds slept (one fixed `RETRY_DELAY_MS` sleep after
each locked failure, the last included).
-/

def RETRIES : Nat := 5

def RETRY_DELAY_MS : Nat := 100

inductive InsertOutcome where
  | success
  | locked
  | otherError (msg : String)
  deriving Repr, DecidableEq

structure InsertTrace where
  ok : Bool
  attempts : Nat
  sleptMs : Nat
  deriving Repr, DecidableEq

def safe_insert_go (outcome : Nat → InsertOutcome) (i : Nat) :
    Nat → Nat → Except String InsertTrace
  | 0, slept => .ok ⟨false, i, slept⟩
  | remaining + 1, slept =>
      match outcome i with
      | .success => .ok ⟨true, i + 1, slept⟩
      | .locked => safe_insert_go outcome (i + 1) remaining (slept + RETRY_DELAY_MS)
      | .otherError msg => .error msg

def safe_insert_event (outcome : Nat → InsertOutcome) : Except String InsertTrace :=
  safe_insert_go outcome 0 RETRIES 0

/-- C9: when every attempt hits "database is locked", `safe_insert_event`
makes exactly 5 attempts, sleeps the fixed 100 ms delay after each failed
attempt (500 ms in total, in particular a 100 ms sleep between consecutive
attempts), then returns false — it reports failure instead of raising; and
if attempt k succeeds after k locked attempts, it returns true immediately
after k+1 attempts. -/
theorem enqueue_bounded_retry (outcome : Nat → InsertOutcome) :
    ((∀ i, i < RETRIES → outcome i = .locked) →
        safe_insert_event outcome =
          .ok ⟨false, RETRIES, RETRIES * RETRY_DELAY_MS⟩) ∧
      ∀ k, k < RETRIES → (∀ i, i < k → outcome i = .locked) →
        outcome k = .success →
        safe_insert_event outcome = .ok ⟨true, k + 1, k * RETRY_DELAY_MS⟩ := by
  have step : ∀ (rem i slept : Nat), outcome i = .locked →
      safe_insert_go outcome i (rem + 1) slept =
        safe_insert_go outcome (i + 1) rem (slept + RETRY_DELAY_MS) := by
    intro rem i slept h
    simp [safe_insert_go, h]
  constructor
  · intro h
    have h0 := h 0 (by norm_num [RETRIES])
    have h1 := h 1 (by norm_num [RETRIES])
    have h2 := h 2 (by norm_num [RETRIES])
    have h3 := h 3 (by norm_num [RETRIES])
    have h4 := h 4 (by norm_num [RETRIES])
    show safe_insert_go outcome 0 RETRIES 0 = _
    rw [show RETRIES = 4 + 1 from rfl, step 4 0 0 h0, step 3 1 _ h1,
      step 2 2 _ h2, step 1 3 _ h3, step 0 4 _ h4]
    simp [safe_insert_go, RETRIES, RETRY_DELAY_MS]
  · intro k hk hlock hsucc
    show safe_insert_go outcome 0 RETRIES 0 = _
    rw [show RETRIES = 5 from rfl] at hk
    interval_cases k
    · rw [show RETRIES = 4 + 1 from rfl]
      simp [safe_insert_go, hsucc, RETRY_DELAY_MS]
    · rw [show RETRIES = 4 + 1 from rfl, step 4 0 0 (hlock 0 (by norm_num))]
      simp [safe_insert_go, hsucc, RETRY_DELAY_MS]
    · rw [show RETRIES = 4 + 1 from rfl, step 4 0 0 (hlock 0 (by norm_num)),
        step 3 1 _ (hlock 1 (by norm_num))]
      simp [safe_insert_go, hsucc, RETRY_DELAY_MS]
    · rw [show RETRIES = 4 + 1 from rfl, step 4 0 0 (hlock 0 (by norm_num)),
        step 3 1 _ (hlock 1 (by norm_num)), step 2 2 _ (hlock 2 (by norm_num))]
      simp [safe_insert_go, hsucc, RETRY_DELAY_MS]
    · rw [show RETRIES = 4 + 1 from rfl, step 4 0 0 (hlock 0 (by norm_num)),
        step 3 1 _ (hlock 1 (by norm_num)), step 2 2 _ (hlock 2 (by norm_num)),
        step 1 3 _ (hlock 3 (by norm_num))]
      simp [safe_insert_go, hsucc, RETRY_DELAY_MS]

/-- Witness for C9: with every attempt locked the writer reports failure
after 5 attempts and 500 ms of sleeping; with a success on the third
attempt it stops at 3 attempts. -/
theorem enqueue_bounded_retry_witness :
    safe_insert_event (fun _ => InsertOutcome.locked) =
        Except.ok ⟨false, RETRIES, RETRIES * RETRY_DELAY_MS⟩ ∧
      safe_insert_event
          (fun i => if i < 2 then InsertOutcome.locked else InsertOutcome.success) =
        Except.ok ⟨true, 2 + 1, 2 * RETRY_DELAY_MS⟩ :=
  ⟨(enqueue_bounded_retry (fun _ => InsertOutcome.locked)).1 (fun _ _ => rfl),
   (enqueue_bounded_retry
      (fun i => if i < 2 then InsertOutcome.locked else InsertOutcome.success)).2
      2 (by norm_num [RETRIES]) (fun i hi => by interval_cases i <;> rfl) rfl⟩

/-!
### Embedding client: `LLMClient.embed` in llm_client.py.

Vectors carry exact rationals (float32 values embed into ℚ).  `_stub_vector`
hashes the text with sha256 (32 bytes), casts the bytes to float32, pads with
wrap-around repetition up to `VECTOR_DIM` and truncates to `VECTOR_DIM`; the
digest is an oracle parameter (sha256 itself is not re-modelled, only its
32-byte output is used).  `_embed_gemini` runs the gemini CLI per text and
parses its output; the parse outcome is an oracle parameter with one
constructor per source branch:
`jsonVec` — the output parsed as JSON, a dict with an `embedding` key or a
raw list, and `np.array(..., dtype=float32)` succeeded (the vector is used
as-is);
`jsonOther` — the output parsed as JSON of another shape, so the floats are
scraped from the text via `_floats_from_text`;
`rawText` — the output is not JSON, floats scraped via `_floats_from_text`;
`cmdFailed` — every candidate command failed or printed nothing, so the
stub vector replaces the chunk.
-/

def VECTOR_DIM : Nat := 1536

/-- Wrap-around padding, `np.pad(arr, (0, target - size), mode="wrap")`:
appended element j repeats `arr[j % size]`. -/
def padWrap (v : List ℚ) (target : Nat) : List ℚ :=
  v ++ (List.range (target - v.length)).map (fun i => v.getD (i % v.length) 0)

def stub_vector (digest : List ℚ) : List ℚ :=
  (if digest.length < VECTOR_DIM then padWrap digest VECTOR_DIM else digest).take
    VECTOR_DIM

def floats_from_text (parts : List ℚ) : List ℚ :=
  if parts = [] then List.replicate VECTOR_DIM 0
  else if parts.length < VECTOR_DIM then padWrap parts VECTOR_DIM
  else if parts.length > VECTOR_DIM then parts.take VECTOR_DIM
  else parts

inductive GeminiParse where
  | jsonVec (v : List ℚ)
  | jsonOther (toks : List ℚ)
  | rawText (toks : List ℚ)
  | cmdFailed
  deriving Repr, DecidableEq

def embed_gemini_one (digest : List ℚ) (parse : GeminiParse) : List ℚ :=
  match parse with
  | .jsonVec v => v
  | .jsonOther toks => floats_from_text toks
  | .rawText toks =>
      let arr := floats_from_text toks
      if 0 < arr.length then arr else stub_vector digest
  | .cmdFailed => stub_vector digest

inductive Backend where
  | gemini
  | ollama
  | stub
  deriving Repr, DecidableEq

structure EmbedEnv where
  digest : String → List ℚ
  geminiOut : String → GeminiParse

/-- Public `embed`: the gemini backend uses `_embed_gemini` only when the
embeddings subcommand was detected; every other path returns one stub vector
per input text. -/
def embed (env : EmbedEnv) (backend : Backend) (geminiHasEmbeddings : Bool)
    (texts : List String) : List (List ℚ) :=
  match backend with
  | .gemini =>
      if geminiHasEmbeddings then
        texts.map (fun t => embed_gemini_one (env.digest t) (env.geminiOut t))
      else texts.map (fun t => stub_vector (env.digest t))
  | .ollama => texts.map (fun t => stub_vector (env.digest t))
  | .stub => texts.map (fun t => stub_vector (env.digest t))

theorem padWrap_length (v : List ℚ) (target : Nat) (h : v.length ≤ target) :
    (padWrap v target).length = target := by
  simp [padWrap]
  omega

theorem stub_vector_length (digest : List ℚ) :
    (stub_vector digest).length = min VECTOR_DIM digest.length ∨
      (stub_vector digest).length = VECTOR_DIM := by
  unfold stub_vector
  split
  · right
    rw [List.length_take, padWrap_length digest VECTOR_DIM (by omega)]
    omega
  · left
    rw [List.length_take, Nat.min_comm]

theorem stub_vector_length_of_digest (digest : List ℚ) (h : digest.length = 32) :
    (stub_vector digest).length = VECTOR_DIM := by
  unfold stub_vector
  rw [if_pos (by rw [h]; norm_num [VECTOR_DIM])]
  rw [List.length_take, padWrap_length digest VECTOR_DIM (by rw [h]; norm_num [VECTOR_DIM])]
  omega

theorem floats_from_text_length (parts : List ℚ) :
    (floats_from_text parts).length = VECTOR_DIM := by
  unfold floats_from_text
  split_ifs with h1 h2 h3
  · simp
  · rw [padWrap_length parts VECTOR_DIM (by omega)]
  · rw [List.length_take]
    omega
  · omega

/-- Counterexample to C5 as stated: with the gemini backend and the
embeddings subcommand available, an output that parses as a JSON embedding
list of length 2 yields a returned vector of length 2, not `VECTOR_DIM`
(1536) — `_embed_gemini` never pads or truncates a successfully JSON-parsed
vector. -/
theorem embed_gemini_json_not_padded :
    embed ⟨fun _ => List.replicate 32 0, fun _ => GeminiParse.jsonVec [1, 2]⟩
        Backend.gemini true ["a"] = [[1, 2]] ∧
      ([1, 2] : List ℚ).length = 2 ∧ (2 : Nat) ≠ VECTOR_DIM := by
  refine ⟨rfl, rfl, by norm_num [VECTOR_DIM]⟩

/-- C5 amended: `embed` always returns exactly one vector per input string,
and — provided every sha256 digest has its real length 32 — every returned
vector either has length exactly `VECTOR_DIM` (1536) or is verbatim a
JSON-parsed provider vector obtained on the gemini backend with the
embeddings subcommand available, whose length is whatever the provider
returned.  All stub, ollama and gemini-fallback vectors are padded (with
wrap-around repetition) or truncated to `VECTOR_DIM`. -/
theorem embed_one_vector_per_input (env : EmbedEnv) (backend : Backend)
    (hasEmb : Bool) (texts : List String)
    (hdig : ∀ t, (env.digest t).length = 32) :
    (embed env backend hasEmb texts).length = texts.length ∧
      ∀ v ∈ embed env backend hasEmb texts,
        v.length = VECTOR_DIM ∨
          ∃ t ∈ texts, env.geminiOut t = GeminiParse.jsonVec v ∧
            backend = Backend.gemini ∧ hasEmb = true := by
  have hstub : ∀ t : String, (stub_vector (env.digest t)).length = VECTOR_DIM :=
    fun t => stub_vector_length_of_digest _ (hdig t)
  have hmapstub : ∀ v ∈ texts.map (fun t => stub_vector (env.digest t)),
      v.length = VECTOR_DIM := by
    intro v hv
    rcases List.mem_map.mp hv with ⟨t, _, rfl⟩
    exact hstub t
  cases backend with
  | gemini =>
      cases hasEmb with
      | false => exact ⟨by simp [embed], fun v hv => Or.inl (hmapstub v hv)⟩
      | true =>
          refine ⟨by simp [embed], ?_⟩
          intro v hv
          simp only [embed] at hv
          rcases List.mem_map.mp hv with ⟨t, ht, rfl⟩
          cases hparse : env.geminiOut t with
          | jsonVec w =>
              right
              exact ⟨t, ht, by rw [hparse]; exact rfl, rfl, rfl⟩
          | jsonOther toks =>
              left
              exact floats_from_text_length toks
          | rawText toks =>
              left
              show (if 0 < (floats_from_text toks).length then floats_from_text toks
                else stub_vector (env.digest t)).length = VECTOR_DIM
              rw [if_pos (by rw [floats_from_text_length toks]; norm_num [VECTOR_DIM])]
              exact floats_from_text_length toks
          | cmdFailed =>
              left
              exact hstub t
  | ollama => exact ⟨by simp [embed], fun v hv => Or.inl (hmapstub v hv)⟩
  | stub => exact ⟨by simp [embed], fun v hv => Or.inl (hmapstub v hv)⟩

/-- Witness for C5 (amended) on the stub backend with a genuine 32-byte
digest shape. -/
theorem embed_one_vector_per_input_witness :
    (embed ⟨fun _ => List.replicate 32 0, fun _ => GeminiParse.cmdFailed⟩
        Backend.stub false ["x", "y"]).length = 2 ∧
      (stub_vector (List.replicate 32 0)).length = VECTOR_DIM ∨
        ∃ t ∈ ["x", "y"],
          (⟨fun _ => List.replicate 32 0, fun _ => GeminiParse.cmdFailed⟩ :
              EmbedEnv).geminiOut t =
            GeminiParse.jsonVec (stub_vector (List.replicate 32 0)) ∧
          Backend.stub = Backend.gemini ∧ false = true := by
  have h := embed_one_vector_per_input
    ⟨fun _ => List.replicate 32 0, fun _ => GeminiParse.cmdFailed⟩
    Backend.stub false ["x", "y"] (fun _ => by simp)
  left
  refine ⟨h.1, ?_⟩
  exact (h.2 (stub_vector (List.replicate 32 0))
    (by simp [embed])).resolve_right (by rintro ⟨t, _, hcon, _⟩; cases hcon)

end PMA
